import Mathlib

/-!
Shallow embedding of the whatsapp-sol CLI reader core (cli/src/index.ts, with
the duplicated variant in cli2/dist/index.js): the account-layout decoder
(_fetchAccountData plus the callers' counter read), the transaction scanner
_fetchNewMessages (filter, extract, decrypt, sort), the command-level key
defaulting, and the live listener monitorPdaUpdates change handler.

Buffers are lists of naturals; JS Buffer operations that throw are modelled as
Option/Except failures; the AES cipher is kept abstract as a
decrypt : Bytes -> Option String oracle (none = the decipher threw).
-/

namespace WhatsappSol

/-- Byte buffers are lists of natural numbers (each entry a byte value). -/
abbrev Bytes := List Nat

/-- Model of JS Buffer.slice / subarray with clamping: the bytes at positions
a up to (excluding) b, truncated at the end of the buffer, never throwing. -/
def slice (d : Bytes) (a b : Nat) : Bytes :=
  (d.take b).drop a

/-- Little-endian 32-bit value assembled from the four bytes at the given
offset, exactly as Buffer.readUInt32LE combines them. -/
def le32 (d : Bytes) (off : Nat) : Nat :=
  d.getD off 0 + 256 * d.getD (off + 1) 0 + 65536 * d.getD (off + 2) 0 +
    16777216 * d.getD (off + 3) 0

/-- Model of Buffer.readUInt32LE: none (a thrown RangeError) when fewer than
four bytes remain at the offset, otherwise the little-endian value. -/
def readUInt32LE (d : Bytes) (off : Nat) : Option Nat :=
  if off + 4 ≤ d.length then some (le32 d off) else none

/-- The configured program address (PROGRAM_ID in the source), as base58 text;
account keys are modelled as opaque strings compared for equality. -/
def PROGRAM_ID : String := "9tN5NBvynubfJwQWDqrSoHEE3Xy2MVj3BmHdLu13wCcS"

/-- DISCRIMINATORS.sendMessage, hex 392822b2bd0a411a, as bytes. -/
def sendMessageTag : Bytes := [57, 40, 34, 178, 189, 10, 65, 26]

/-- DISCRIMINATORS.sendBroadcast, hex e9f1484d97932059, as bytes. -/
def sendBroadcastTag : Bytes := [233, 241, 72, 77, 151, 147, 32, 89]

/-- One compiled instruction of a fetched transaction message. -/
structure CompiledInstruction where
  programIdIndex : Nat
  accountKeyIndexes : List Nat
  data : Bytes
deriving DecidableEq

/-- The message part of a fetched transaction: static account keys and the
compiled instruction list (a legacy message without compiledInstructions is
modelled as an empty instruction list, which, as in the source, contributes
nothing). -/
structure TxMessage where
  staticAccountKeys : List String
  compiledInstructions : List CompiledInstruction
deriving DecidableEq

/-- A successfully fetched transaction: its message and optional blockTime. -/
structure TxInfo where
  message : TxMessage
  blockTime : Option Int
deriving DecidableEq

/-- The transaction history window returned by getSignaturesForAddress plus
per-signature getTransaction results, newest first; none models a fetch that
threw or returned a null transaction (skipped by the per-signature catch). -/
abbrev History := List (String × Option TxInfo)

/-- One decrypted record pushed by _fetchNewMessages. -/
structure MessageRecord where
  index : Nat
  sender : String
  content : String
  timestamp : Option Int
  signature : String
deriving DecidableEq

/-- The discriminator gate of the scanner: ixData.length > 8 and the first
eight bytes equal to the tag, from the source's
`ixData.length > 8 && ixData.subarray(0, 8).equals(DISCRIMINATOR)`. -/
def matchesDiscriminator (data disc : Bytes) : Bool :=
  decide (8 < data.length ∧ slice data 0 8 = disc)

/-- Processing of one compiled instruction inside _fetchNewMessages.
Outcomes: `.error ()` is a JS throw reaching the per-transaction catch (an
out-of-range programIdIndex, or a readUInt32LE RangeError on a short payload);
`.ok none` is a silently skipped instruction (filter miss, index below
startingIndex, decryption failure, or a sender lookup failure inside the inner
try); `.ok (some m)` is a pushed record. -/
def processInstruction (decrypt : Bytes → Option String) (disc : Bytes)
    (keys : List String) (sig : String) (bt : Option Int) (startingIndex : Nat)
    (ix : CompiledInstruction) : Except Unit (Option MessageRecord) :=
  match keys[ix.programIdIndex]? with
  | none => .error ()
  | some programId =>
    if programId = PROGRAM_ID then
      if matchesDiscriminator ix.data disc then
        match readUInt32LE ix.data 8, readUInt32LE ix.data 12 with
        | some messageIndex, some contentLength =>
          if startingIndex ≤ messageIndex then
            match decrypt (slice ix.data 16 (16 + contentLength)) with
            | none => .ok none
            | some plain =>
              match ix.accountKeyIndexes[1]? with
              | none => .ok none
              | some senderIdx =>
                match keys[senderIdx]? with
                | none => .ok none
                | some sender => .ok (some ⟨messageIndex, sender, plain, bt, sig⟩)
          else .ok none
        | _, _ => .error ()
      else .ok none
    else .ok none

/-- The instruction loop of one transaction: records pushed before a throw are
kept (the array mutation survives), instructions after the throw are lost to
the per-transaction catch. -/
def processIxList (decrypt : Bytes → Option String) (disc : Bytes)
    (keys : List String) (sig : String) (bt : Option Int) (startingIndex : Nat) :
    List CompiledInstruction → List MessageRecord
  | [] => []
  | ix :: rest =>
    match processInstruction decrypt disc keys sig bt startingIndex ix with
    | .error _ => []
    | .ok none => processIxList decrypt disc keys sig bt startingIndex rest
    | .ok (some m) => m :: processIxList decrypt disc keys sig bt startingIndex rest

/-- Records contributed by one signature of the history window. -/
def processTx (decrypt : Bytes → Option String) (disc : Bytes)
    (startingIndex : Nat) (sig : String) (fetched : Option TxInfo) :
    List MessageRecord :=
  match fetched with
  | none => []
  | some tx =>
    processIxList decrypt disc tx.message.staticAccountKeys sig tx.blockTime
      startingIndex tx.message.compiledInstructions

/-- All records collected across the history window, in scan order (the state
of the messages array just before the final sort). -/
def extractedRecords (decrypt : Bytes → Option String) (disc : Bytes)
    (startingIndex : Nat) : History → List MessageRecord
  | [] => []
  | e :: rest =>
    processTx decrypt disc startingIndex e.1 e.2 ++
      extractedRecords decrypt disc startingIndex rest

/-- The comparator of the final sort, messages.sort((a, b) => a.index - b.index). -/
def msgLe (a b : MessageRecord) : Prop := a.index ≤ b.index

instance : DecidableRel msgLe := fun a b => Nat.decLe a.index b.index

instance : IsTotal MessageRecord msgLe := ⟨fun a b => Nat.le_total a.index b.index⟩

instance : IsTrans MessageRecord msgLe := ⟨fun _ _ _ hab hbc => Nat.le_trans hab hbc⟩

/-- _fetchNewMessages: scan the history window, then sort ascending by index.
The JS engine's Array.prototype.sort is stable, modelled by insertion sort. -/
def fetchNewMessages (decrypt : Bytes → Option String) (disc : Bytes)
    (startingIndex : Nat) (hist : History) : List MessageRecord :=
  List.insertionSort msgLe (extractedRecords decrypt disc startingIndex hist)

/-- Decoded thread account metadata together with the caller-side counter read
(accountData.readUInt32LE(metadata.messageCountOffset) with offset 104). -/
structure ThreadRecord where
  participantA : Bytes
  participantB : Bytes
  messageCount : Nat
deriving DecidableEq

/-- Thread branch of _fetchAccountData combined with the counter read at the
stored offset 104: participants at bytes 8..40 and 40..72 (the PublicKey
constructor throws unless it gets exactly 32 bytes), count little-endian at
104. -/
def decodeThread (data : Bytes) : Option ThreadRecord :=
  if (slice data 8 40).length = 32 ∧ (slice data 40 72).length = 32 then
    match readUInt32LE data 104 with
    | some c => some ⟨slice data 8 40, slice data 40 72, c⟩
    | none => none
  else none

/-- Decoded channel account metadata together with the caller-side counter
read at the stored fixed offset 76. The name is kept as raw bytes. -/
structure ChannelRecord where
  owner : Bytes
  name : Bytes
  broadcastCount : Nat
deriving DecidableEq

/-- Channel branch of _fetchAccountData combined with the counter read at the
stored offset 76: owner at bytes 8..40, name length little-endian at 40, name
bytes 44..44+len (clamped slice), count little-endian at the fixed offset 76
regardless of the name length. -/
def decodeChannel (data : Bytes) : Option ChannelRecord :=
  if (slice data 8 40).length = 32 then
    match readUInt32LE data 40 with
    | some nameLen =>
      match readUInt32LE data 76 with
      | some c => some ⟨slice data 8 40, slice data 44 (44 + nameLen), c⟩
      | none => none
    | none => none
  else none

/-- ASCII reading of name bytes, matching Buffer.toString for ASCII data. -/
def asciiText (bs : Bytes) : String :=
  String.mk (bs.map Char.ofNat)

/-- JS options.key || dflt: the default is substituted when the option is
absent or the empty string (falsy). -/
def jsOrDefault (key : Option String) (dflt : String) : String :=
  match key with
  | none => dflt
  | some s => if s = "" then dflt else s

/-- Key used by the send command (options.key || "default-secret-key"). -/
def sendMessageSecret (key : Option String) : String :=
  jsOrDefault key "default-secret-key"

/-- Key used by the read command (options.key || "default-secret-key"). -/
def readMessagesSecret (key : Option String) : String :=
  jsOrDefault key "default-secret-key"

/-- Key used by send-broadcast (options.key || "default-channel-key"). -/
def sendBroadcastSecret (key : Option String) : String :=
  jsOrDefault key "default-channel-key"

/-- Key used by read-broadcasts (options.key || "default-channel-key"). -/
def readBroadcastsSecret (key : Option String) : String :=
  jsOrDefault key "default-channel-key"

/-- Key used by the listen command: monitorPdaUpdates computes
options.key || "default-secret-key" independently of whether a thread or a
channel is being monitored (the isThread flag, passed here for the record,
never reaches the key selection). -/
def listenSecret (key : Option String) (_isThread : Bool) : String :=
  jsOrDefault key "default-secret-key"

/-- Observable outcome of one change notification in monitorPdaUpdates. -/
inductive ListenOutput where
  | displayed : MessageRecord → ListenOutput
  | couldNotRetrieve : Nat → Nat → ListenOutput
  | silent : ListenOutput
deriving DecidableEq

/-- The onAccountChange handler of monitorPdaUpdates: when the new counter
exceeds the last-observed one it re-fetches with startingIndex = the old
counter, displays only newMessages[newMessages.length - 1] when any record
was recovered (or reports that content could not be retrieved), and updates
the counter; otherwise the notification is ignored. Returns the updated
counter and the observable output. -/
def monitorStep (decrypt : Bytes → Option String) (disc : Bytes)
    (hist : History) (initialCount newCount : Nat) : Nat × ListenOutput :=
  if initialCount < newCount then
    match (fetchNewMessages decrypt disc initialCount hist).getLast? with
    | some latest => (newCount, .displayed latest)
    | none => (newCount, .couldNotRetrieve initialCount newCount)
  else (initialCount, .silent)

/-! ### Shared helper lemmas about the final sort -/

/-- The strict version of the sort comparator. -/
def msgLt (a b : MessageRecord) : Prop := a.index < b.index

instance : IsAntisymm MessageRecord msgLt :=
  ⟨fun _ _ h1 h2 => absurd h2 (Nat.lt_asymm h1)⟩

lemma fetchNewMessages_sorted (decrypt : Bytes → Option String) (disc : Bytes)
    (k : Nat) (hist : History) :
    List.Sorted msgLe (fetchNewMessages decrypt disc k hist) :=
  List.sorted_insertionSort msgLe _

lemma fetchNewMessages_perm_extracted (decrypt : Bytes → Option String)
    (disc : Bytes) (k : Nat) (hist : History) :
    (fetchNewMessages decrypt disc k hist).Perm
      (extractedRecords decrypt disc k hist) :=
  List.perm_insertionSort msgLe _

lemma eq_of_perm_sorted_distinct {l1 l2 : List MessageRecord}
    (hp : l1.Perm l2) (hs1 : List.Sorted msgLe l1) (hs2 : List.Sorted msgLe l2)
    (hd : l1.Pairwise fun a b => a.index ≠ b.index) : l1 = l2 := by
  have hd2 : l2.Pairwise fun a b => a.index ≠ b.index :=
    (hp.pairwise_iff fun h => Ne.symm h).mp hd
  have hlt1 : List.Sorted msgLt l1 :=
    (hs1.and hd).imp fun h => Nat.lt_of_le_of_ne h.1 h.2
  have hlt2 : List.Sorted msgLt l2 :=
    (hs2.and hd2).imp fun h => Nat.lt_of_le_of_ne h.1 h.2
  exact List.eq_of_perm_of_sorted hp hlt1 hlt2

lemma extractedRecords_perm_of_hist_perm (decrypt : Bytes → Option String)
    (disc : Bytes) (k : Nat) {h1 h2 : History} (hp : h1.Perm h2) :
    (extractedRecords decrypt disc k h1).Perm (extractedRecords decrypt disc k h2) := by
  induction hp with
  | nil => exact List.Perm.refl _
  | cons x _ ih =>
    simpa [extractedRecords] using ih.append_left (processTx decrypt disc k x.1 x.2)
  | swap x y l =>
    simp only [extractedRecords, ← List.append_assoc]
    exact List.perm_append_comm.append_right _
  | trans _ _ ih1 ih2 => exact ih1.trans ih2

/-! ### Layout decoder claims -/

/-- Claim C4: for every thread account buffer of length at least 108, decoding
returns participantA = bytes 8..40, participantB = bytes 40..72 and
messageCount = the little-endian u32 at offset 104, and decoding is a pure
function of the bytes (equal buffers give equal records). -/
theorem decodeThread_spec (data : Bytes) (h : 108 ≤ data.length) :
    decodeThread data =
      some ⟨slice data 8 40, slice data 40 72, le32 data 104⟩ ∧
    ∀ d2 : Bytes, d2 = data → decodeThread d2 = decodeThread data := by
  refine ⟨?_, fun d2 hd => by rw [hd]⟩
  have h1 : (slice data 8 40).length = 32 := by
    simp only [slice, List.length_drop, List.length_take]
    omega
  have h2 : (slice data 40 72).length = 32 := by
    simp only [slice, List.length_drop, List.length_take]
    omega
  have h3 : readUInt32LE data 104 = some (le32 data 104) := by
    simp only [readUInt32LE, if_pos (by omega : 104 + 4 ≤ data.length)]
  simp only [decodeThread, h3, if_pos (And.intro h1 h2)]

/-- Concrete thread buffer from the spec scenario: 8-byte tag, 32 zero bytes,
32 one bytes, a 32-byte token, and counter value 5 at offset 104. -/
def threadBytes : Bytes :=
  List.replicate 8 7 ++ List.replicate 32 0 ++ List.replicate 32 1 ++
    List.replicate 32 9 ++ [5, 0, 0, 0]

theorem decodeThread_spec_witness :
    108 ≤ threadBytes.length ∧
    decodeThread threadBytes =
      some ⟨List.replicate 32 0, List.replicate 32 1, 5⟩ := by
  refine ⟨by decide, ?_⟩
  have h := (decodeThread_spec threadBytes (by decide)).1
  rw [h]
  decide

/-- Claim C2: for every channel account buffer of length at least 80, decoding
reads the broadcast count as the little-endian u32 at the fixed offset 76 (an
expression that never consults the name length read at offset 40), while the
name is taken from bytes 44..44+nameLen. -/
theorem decodeChannel_spec (data : Bytes) (h : 80 ≤ data.length) :
    decodeChannel data =
      some ⟨slice data 8 40, slice data 44 (44 + le32 data 40), le32 data 76⟩ := by
  have h1 : (slice data 8 40).length = 32 := by
    simp only [slice, List.length_drop, List.length_take]
    omega
  have h2 : readUInt32LE data 40 = some (le32 data 40) := by
    simp only [readUInt32LE, if_pos (by omega : 40 + 4 ≤ data.length)]
  have h3 : readUInt32LE data 76 = some (le32 data 76) := by
    simp only [readUInt32LE, if_pos (by omega : 76 + 4 ≤ data.length)]
  simp only [decodeChannel, h2, h3, if_pos h1]

/-- Concrete channel buffer: owner bytes all 3, nameLen = 4, name "Test",
value 7 at the name-length-derived offset 48, counter 2 at fixed offset 76. -/
def channelBytes : Bytes :=
  List.replicate 8 7 ++ List.replicate 32 3 ++ [4, 0, 0, 0] ++
    [84, 101, 115, 116] ++ [7, 0, 0, 0] ++ List.replicate 24 0 ++ [2, 0, 0, 0]

theorem decodeChannel_spec_witness :
    80 ≤ channelBytes.length ∧
    (decodeChannel channelBytes =
        some ⟨List.replicate 32 3, [84, 101, 115, 116], 2⟩ ∧
      asciiText [84, 101, 115, 116] = "Test" ∧
      le32 channelBytes 48 = 7) := by
  refine ⟨by decide, ?_, by decide, by decide⟩
  have h := decodeChannel_spec channelBytes (by decide)
  rw [h]
  decide

/-! ### Key defaulting (claim C9) -/

/-- Claim C9: with --key omitted the commands silently substitute fixed
literals: thread send/read use "default-secret-key", channel
send-broadcast/read-broadcasts use "default-channel-key", and listen uses
"default-secret-key" whether a thread or a channel is monitored, which is a
different literal from the channel default. -/
theorem defaultKeys_spec :
    sendMessageSecret none = "default-secret-key" ∧
    readMessagesSecret none = "default-secret-key" ∧
    sendBroadcastSecret none = "default-channel-key" ∧
    readBroadcastsSecret none = "default-channel-key" ∧
    (∀ isThread : Bool, listenSecret none isThread = "default-secret-key") ∧
    listenSecret none false ≠ sendBroadcastSecret none := by
  exact ⟨rfl, rfl, rfl, rfl, fun _ => rfl, by decide⟩

/-! ### Reconstruction ordering claims -/

/-- Claim C1: over any history whose extracted append records carry pairwise
distinct indices 0..n-1, reconstruction with startingIndex 0 returns exactly
those n records sorted ascending by index — the same output for every
permutation of the reverse-chronological arrival order, losing none. -/
theorem reconstruct_complete_and_order_independent
    (decrypt : Bytes → Option String) (disc : Bytes) (n : Nat)
    (h1 h2 : History) (hperm : h1.Perm h2)
    (hdist : (extractedRecords decrypt disc 0 h1).Pairwise
      fun a b => a.index ≠ b.index)
    (hidx : ((extractedRecords decrypt disc 0 h1).map MessageRecord.index).Perm
      (List.range n)) :
    fetchNewMessages decrypt disc 0 h1 = fetchNewMessages decrypt disc 0 h2 ∧
    (fetchNewMessages decrypt disc 0 h1).Perm
      (extractedRecords decrypt disc 0 h1) ∧
    (fetchNewMessages decrypt disc 0 h1).map MessageRecord.index =
      List.range n := by
  have pe := extractedRecords_perm_of_hist_perm decrypt disc 0 hperm
  have p1 := fetchNewMessages_perm_extracted decrypt disc 0 h1
  have p2 := fetchNewMessages_perm_extracted decrypt disc 0 h2
  have ps : (fetchNewMessages decrypt disc 0 h1).Perm
      (fetchNewMessages decrypt disc 0 h2) := (p1.trans pe).trans p2.symm
  have hd1 : (fetchNewMessages decrypt disc 0 h1).Pairwise
      fun a b => a.index ≠ b.index :=
    hdist.perm p1.symm fun h => Ne.symm h
  refine ⟨eq_of_perm_sorted_distinct ps (fetchNewMessages_sorted decrypt disc 0 h1)
    (fetchNewMessages_sorted decrypt disc 0 h2) hd1, p1, ?_⟩
  have hmp : ((fetchNewMessages decrypt disc 0 h1).map MessageRecord.index).Perm
      (List.range n) := (p1.map MessageRecord.index).trans hidx
  have hms : List.Sorted (fun a b : Nat => a ≤ b)
      ((fetchNewMessages decrypt disc 0 h1).map MessageRecord.index) :=
    (fetchNewMessages_sorted decrypt disc 0 h1).map MessageRecord.index
      fun _ _ h => h
  exact List.eq_of_perm_of_sorted hmp hms (List.sorted_le_range n)

/-- Toy decrypt oracle for concrete scenarios: succeeds on the one-byte
ciphertexts 10 and 11, fails elsewhere. -/
def decrypt0 : Bytes → Option String := fun c =>
  if c = [10] then some "hello" else if c = [11] then some "world" else none

/-- Static account keys for concrete scenarios: the program id then a sender. -/
def keys0 : List String := [PROGRAM_ID, "alice"]

/-- A well-formed thread append instruction with the given index byte and
ciphertext, calling the configured program. -/
def mkSendIx (i : Nat) (ct : Bytes) : CompiledInstruction :=
  ⟨0, [0, 1], sendMessageTag ++ [i, 0, 0, 0] ++ [ct.length, 0, 0, 0] ++ ct⟩

/-- A single-instruction fetched transaction for concrete scenarios. -/
def mkTx (s : String) (i : Nat) (ct : Bytes) : String × Option TxInfo :=
  (s, some ⟨⟨keys0, [mkSendIx i ct]⟩, some 3⟩)

/-- Newest-first arrival: index 1 delivered before index 0. -/
def histA : History := [mkTx "sig1" 1 [11], mkTx "sig0" 0 [10]]

/-- The opposite arrival order of the same two transactions. -/
def histB : History := [mkTx "sig0" 0 [10], mkTx "sig1" 1 [11]]

theorem reconstruct_complete_witness :
    histA.Perm histB ∧
    ((extractedRecords decrypt0 sendMessageTag 0 histA).Pairwise
      fun a b => a.index ≠ b.index) ∧
    ((extractedRecords decrypt0 sendMessageTag 0 histA).map
      MessageRecord.index).Perm (List.range 2) ∧
    (fetchNewMessages decrypt0 sendMessageTag 0 histA =
      fetchNewMessages decrypt0 sendMessageTag 0 histB ∧
    (fetchNewMessages decrypt0 sendMessageTag 0 histA).map MessageRecord.index =
      List.range 2) := by
  have h := reconstruct_complete_and_order_independent decrypt0 sendMessageTag 2
    histA histB (by decide) (by decide) (by decide)
  exact ⟨by decide, by decide, by decide, h.1, h.2.2⟩

/-- Two different transactions carrying the same index 0. -/
def histDup : History := [mkTx "sigX" 0 [10], mkTx "sigY" 0 [11]]

/-- Claim C10: no deduplication is performed — the returned sequence is a
permutation of the extracted records (one entry per successfully decrypted
matched instruction, duplicates included), sorted ascending by index so equal
indices end up adjacent; concretely a history with two records both at index 0
yields both, adjacent. -/
theorem reconstruct_no_deduplication :
    (∀ (decrypt : Bytes → Option String) (disc : Bytes) (k : Nat)
      (hist : History),
      (fetchNewMessages decrypt disc k hist).Perm
        (extractedRecords decrypt disc k hist) ∧
      List.Sorted msgLe (fetchNewMessages decrypt disc k hist) ∧
      (fetchNewMessages decrypt disc k hist).length =
        (extractedRecords decrypt disc k hist).length) ∧
    fetchNewMessages decrypt0 sendMessageTag 0 histDup =
      [⟨0, "alice", "hello", some 3, "sigX"⟩, ⟨0, "alice", "world", some 3, "sigY"⟩] := by
  refine ⟨fun decrypt disc k hist => ?_, by decide⟩
  have hp := fetchNewMessages_perm_extracted decrypt disc k hist
  exact ⟨hp, fetchNewMessages_sorted decrypt disc k hist, hp.length_eq⟩

/-! ### startingIndex is a pure filter (claim C7) -/

lemma processInstruction_start (decrypt : Bytes → Option String) (disc : Bytes)
    (keys : List String) (sig : String) (bt : Option Int) (k : Nat)
    (ix : CompiledInstruction) :
    processInstruction decrypt disc keys sig bt k ix =
      match processInstruction decrypt disc keys sig bt 0 ix with
      | .error e => .error e
      | .ok none => .ok none
      | .ok (some m) => if k ≤ m.index then .ok (some m) else .ok none := by
  simp only [processInstruction]
  cases keys[ix.programIdIndex]? with
  | none => rfl
  | some pid =>
    by_cases h1 : pid = PROGRAM_ID
    · simp only [if_pos h1]
      by_cases h2 : matchesDiscriminator ix.data disc
      · simp only [if_pos h2]
        cases readUInt32LE ix.data 8 with
        | none => rfl
        | some mi =>
          cases readUInt32LE ix.data 12 with
          | none => rfl
          | some cl =>
            simp only [Nat.zero_le, if_true]
            cases hdec : decrypt (slice ix.data 16 (16 + cl)) with
            | none => simp
            | some plain =>
              cases hak : ix.accountKeyIndexes[1]? with
              | none => simp
              | some si => cases hsi : keys[si]? <;> simp [hsi]
      · simp only [if_neg h2]
    · simp only [if_neg h1]

lemma processIxList_start (decrypt : Bytes → Option String) (disc : Bytes)
    (keys : List String) (sig : String) (bt : Option Int) (k : Nat) :
    ∀ l : List CompiledInstruction,
      processIxList decrypt disc keys sig bt k l =
        (processIxList decrypt disc keys sig bt 0 l).filter
          fun m => k ≤ m.index
  | [] => rfl
  | ix :: rest => by
    rw [processIxList, processIxList,
      processInstruction_start decrypt disc keys sig bt k ix]
    cases h : processInstruction decrypt disc keys sig bt 0 ix with
    | error e => simp
    | ok o =>
      cases o with
      | none => simpa using processIxList_start decrypt disc keys sig bt k rest
      | some m =>
        by_cases hk : k ≤ m.index <;>
          simp [hk, List.filter_cons,
            processIxList_start decrypt disc keys sig bt k rest]

lemma processTx_start (decrypt : Bytes → Option String) (disc : Bytes) (k : Nat)
    (sig : String) (fr : Option TxInfo) :
    processTx decrypt disc k sig fr =
      (processTx decrypt disc 0 sig fr).filter fun m => k ≤ m.index := by
  cases fr with
  | none => rfl
  | some tx => exact processIxList_start decrypt disc _ sig tx.blockTime k _

lemma extractedRecords_start (decrypt : Bytes → Option String) (disc : Bytes)
    (k : Nat) :
    ∀ hist : History,
      extractedRecords decrypt disc k hist =
        (extractedRecords decrypt disc 0 hist).filter fun m => k ≤ m.index
  | [] => rfl
  | e :: rest => by
    rw [extractedRecords, extractedRecords, List.filter_append,
      processTx_start decrypt disc k e.1 e.2,
      extractedRecords_start decrypt disc k rest]

lemma orderedInsert_of_forall_le (a : MessageRecord) (L : List MessageRecord)
    (h : ∀ c ∈ L, msgLe a c) : List.orderedInsert msgLe a L = a :: L := by
  cases L with
  | nil => rfl
  | cons b t =>
    simp only [List.orderedInsert, if_pos (h b (List.mem_cons_self b t))]

lemma filter_orderedInsert (p : MessageRecord → Bool) (a : MessageRecord) :
    ∀ l : List MessageRecord, List.Sorted msgLe l →
      (List.orderedInsert msgLe a l).filter p =
        if p a then List.orderedInsert msgLe a (l.filter p) else l.filter p
  | [], _ => by
    cases hpa : p a <;> simp [List.orderedInsert, List.filter, hpa]
  | b :: t, hs => by
    have ht : List.Sorted msgLe t := hs.of_cons
    by_cases hab : msgLe a b
    · rw [List.orderedInsert, if_pos hab]
      by_cases hpa : p a
      · have hall : ∀ c ∈ List.filter p (b :: t), msgLe a c := by
          intro c hc
          rcases List.mem_cons.mp (List.mem_of_mem_filter hc) with hcb | hct
          · exact hcb ▸ hab
          · exact Nat.le_trans hab (List.rel_of_sorted_cons hs c hct)
        rw [orderedInsert_of_forall_le a _ hall]
        simp [List.filter_cons, hpa]
      · simp [List.filter_cons, hpa]
    · rw [List.orderedInsert, if_neg hab]
      rw [List.filter_cons, filter_orderedInsert p a t ht, List.filter_cons]
      by_cases hpa : p a <;> by_cases hpb : p b <;>
        simp [hpa, hpb, List.orderedInsert, hab]

lemma filter_insertionSort (p : MessageRecord → Bool) :
    ∀ l : List MessageRecord,
      (List.insertionSort msgLe l).filter p =
        List.insertionSort msgLe (l.filter p)
  | [] => rfl
  | a :: t => by
    rw [List.insertionSort,
      filter_orderedInsert p a _ (List.sorted_insertionSort msgLe t),
      List.filter_cons]
    by_cases hpa : p a <;>
      simp [hpa, filter_insertionSort p t, List.insertionSort]

/-- Claim C7: reconstruction with minIndex k equals the full reconstruction
with minIndex 0 filtered to index at least k — record for record, over any
history and any k. -/
theorem incremental_tail_equivalence (decrypt : Bytes → Option String)
    (disc : Bytes) (hist : History) (k : Nat) :
    fetchNewMessages decrypt disc k hist =
      (fetchNewMessages decrypt disc 0 hist).filter fun m => k ≤ m.index := by
  rw [fetchNewMessages, fetchNewMessages, extractedRecords_start,
    filter_insertionSort]

/-! ### Local failure containment (claim C8) -/

lemma extractedRecords_append (decrypt : Bytes → Option String) (disc : Bytes)
    (k : Nat) :
    ∀ h1 h2 : History,
      extractedRecords decrypt disc k (h1 ++ h2) =
        extractedRecords decrypt disc k h1 ++ extractedRecords decrypt disc k h2
  | [], _ => rfl
  | e :: t, h2 => by
    rw [List.cons_append, extractedRecords, extractedRecords,
      extractedRecords_append decrypt disc k t h2, List.append_assoc]

lemma processIxList_skip (decrypt : Bytes → Option String) (disc : Bytes)
    (keys : List String) (sig : String) (bt : Option Int) (k : Nat)
    (ix : CompiledInstruction)
    (hskip : processInstruction decrypt disc keys sig bt k ix = .ok none) :
    ∀ l1 l2 : List CompiledInstruction,
      processIxList decrypt disc keys sig bt k (l1 ++ ix :: l2) =
        processIxList decrypt disc keys sig bt k (l1 ++ l2)
  | [], l2 => by simp [processIxList, hskip]
  | j :: t, l2 => by
    rw [List.cons_append, List.cons_append, processIxList, processIxList]
    cases processInstruction decrypt disc keys sig bt k j with
    | error e => rfl
    | ok o =>
      cases o with
      | none => exact processIxList_skip decrypt disc keys sig bt k ix hskip t l2
      | some m => rw [processIxList_skip decrypt disc keys sig bt k ix hskip t l2]

/-- Claim C8: local failures never abort the reconstruction. A transaction
reference whose fetch failed (or returned null) contributes nothing and every
record of the other references is returned unchanged; an instruction that is
skipped — in particular one whose decryption fails — leaves the output equal
to that of the same history without the instruction, so every remaining valid
record is still present. -/
theorem failures_contained (decrypt : Bytes → Option String) (disc : Bytes)
    (k : Nat) (pre post : History) (s1 s2 : String) (keys : List String)
    (bt : Option Int) (l1 l2 : List CompiledInstruction)
    (ix : CompiledInstruction)
    (hskip : processInstruction decrypt disc keys s2 bt k ix = .ok none) :
    fetchNewMessages decrypt disc k (pre ++ (s1, none) :: post) =
      fetchNewMessages decrypt disc k (pre ++ post) ∧
    fetchNewMessages decrypt disc k
        (pre ++ (s2, some ⟨⟨keys, l1 ++ ix :: l2⟩, bt⟩) :: post) =
      fetchNewMessages decrypt disc k
        (pre ++ (s2, some ⟨⟨keys, l1 ++ l2⟩, bt⟩) :: post) := by
  constructor
  · rw [fetchNewMessages, fetchNewMessages, extractedRecords_append,
      extractedRecords_append]
    rw [extractedRecords, processTx]
    rfl
  · rw [fetchNewMessages, fetchNewMessages, extractedRecords_append,
      extractedRecords_append]
    rw [extractedRecords, extractedRecords, processTx, processTx]
    rw [processIxList_skip decrypt disc keys s2 bt k ix hskip l1 l2]

/-- A transaction whose single instruction carries an undecryptable
ciphertext (byte 99 is rejected by the toy oracle). -/
def badCipherIx : CompiledInstruction := mkSendIx 0 [99]

theorem failures_contained_witness :
    processInstruction decrypt0 sendMessageTag keys0 "sigF" (some 3) 0
      badCipherIx = .ok none ∧
    (fetchNewMessages decrypt0 sendMessageTag 0
        ([mkTx "sig1" 1 [11]] ++ ("sigBad", none) :: [mkTx "sig0" 0 [10]]) =
      fetchNewMessages decrypt0 sendMessageTag 0
        ([mkTx "sig1" 1 [11]] ++ [mkTx "sig0" 0 [10]]) ∧
    fetchNewMessages decrypt0 sendMessageTag 0
        ([mkTx "sig1" 1 [11]] ++
          ("sigF", some ⟨⟨keys0, [] ++ badCipherIx :: []⟩, some 3⟩) ::
            [mkTx "sig0" 0 [10]]) =
      fetchNewMessages decrypt0 sendMessageTag 0
        ([mkTx "sig1" 1 [11]] ++
          ("sigF", some ⟨⟨keys0, [] ++ []⟩, some 3⟩) :: [mkTx "sig0" 0 [10]])) := by
  refine ⟨rfl, ?_⟩
  exact failures_contained decrypt0 sendMessageTag 0 [mkTx "sig1" 1 [11]]
    [mkTx "sig0" 0 [10]] "sigBad" "sigF" keys0 (some 3) [] [] badCipherIx rfl

/-! ### Filter length rule (claim C5) -/

/-- An instruction whose payload is exactly the 8-byte tag, addressed to the
configured program. -/
def exactTagIx : CompiledInstruction := ⟨0, [0, 1], sendMessageTag⟩

/-- Claim C5 counterexample: a payload of exactly 8 bytes equal to the tag,
on a program-matching instruction, is skipped by the filter — refuting the
claim that only payloads shorter than the tag are skipped: the source demands
ixData.length > 8 strictly. -/
theorem filter_exact_tag_counterexample :
    exactTagIx.data.length = 8 ∧
    slice exactTagIx.data 0 8 = sendMessageTag ∧
    keys0[exactTagIx.programIdIndex]? = some PROGRAM_ID ∧
    matchesDiscriminator exactTagIx.data sendMessageTag = false ∧
    processInstruction decrypt0 sendMessageTag keys0 "sig" none 0 exactTagIx =
      .ok none := by
  exact ⟨by decide, by decide, by decide, by decide, rfl⟩

/-- Claim C5 amended: the discriminator gate passes iff the payload is
strictly longer than the 8-byte tag and its first 8 bytes equal the tag;
a record can only be produced for an instruction whose program address equals
the configured program and whose payload passes that gate. -/
theorem filter_strict_length_characterization :
    (∀ data disc : Bytes,
      matchesDiscriminator data disc = true ↔
        8 < data.length ∧ slice data 0 8 = disc) ∧
    ∀ (decrypt : Bytes → Option String) (disc : Bytes) (keys : List String)
      (sig : String) (bt : Option Int) (k : Nat) (ix : CompiledInstruction)
      (m : MessageRecord),
      processInstruction decrypt disc keys sig bt k ix = .ok (some m) →
      keys[ix.programIdIndex]? = some PROGRAM_ID ∧
      matchesDiscriminator ix.data disc = true := by
  constructor
  · intro data disc
    simp [matchesDiscriminator]
  · intro decrypt disc keys sig bt k ix m h
    revert h
    simp only [processInstruction]
    cases hpk : keys[ix.programIdIndex]? with
    | none => intro h; exact Except.noConfusion h
    | some pid =>
      by_cases h1 : pid = PROGRAM_ID
      · simp only [if_pos h1]
        by_cases h2 : matchesDiscriminator ix.data disc
        · intro _
          exact ⟨by rw [h1], h2⟩
        · simp only [if_neg h2]
          intro h
          simp at h
      · simp only [if_neg h1]
        intro h
        simp at h

theorem filter_strict_length_witness :
    processInstruction decrypt0 sendMessageTag keys0 "s" (some 3) 0
      (mkSendIx 0 [10]) = .ok (some ⟨0, "alice", "hello", some 3, "s"⟩) ∧
    (keys0[(mkSendIx 0 [10]).programIdIndex]? = some PROGRAM_ID ∧
      matchesDiscriminator (mkSendIx 0 [10]).data sendMessageTag = true) := by
  refine ⟨rfl, ?_⟩
  exact filter_strict_length_characterization.2 decrypt0 sendMessageTag keys0
    "s" (some 3) 0 (mkSendIx 0 [10]) ⟨0, "alice", "hello", some 3, "s"⟩ rfl

/-! ### Over-long declared contentLength (claim C3) -/

/-- A matched payload declaring contentLength 100 while only 4 ciphertext
bytes follow the 16-byte header. -/
def shortPayloadIx : CompiledInstruction :=
  ⟨0, [0, 1], sendMessageTag ++ [0, 0, 0, 0] ++ [100, 0, 0, 0] ++ [1, 2, 3, 4]⟩

/-- A cipher oracle that happens to accept the truncated 4-byte slice. -/
def decryptShort : Bytes → Option String := fun c =>
  if c = [1, 2, 3, 4] then some "short" else none

/-- Claim C3 counterexample: on a matched payload with declared contentLength
exceeding the remaining bytes (length 20 < 16 + 100) extraction does not fail
at all: the slice clamps and a record is produced whenever the cipher accepts
the truncated bytes — there is no MalformedPayload outcome in the code. -/
theorem short_payload_counterexample :
    shortPayloadIx.data.length = 20 ∧
    le32 shortPayloadIx.data 12 = 100 ∧
    shortPayloadIx.data.length < 16 + le32 shortPayloadIx.data 12 ∧
    processInstruction decryptShort sendMessageTag keys0 "sig" none 0
      shortPayloadIx = .ok (some ⟨0, "alice", "short", none, "sig"⟩) := by
  exact ⟨by decide, by decide, by decide, rfl⟩

/-- Claim C3 amended: for a payload of length at least 16 whose declared
contentLength exceeds the remaining bytes, no length validation happens: the
ciphertext slice silently clamps to every byte after the 16-byte header,
decryption is attempted on exactly those bytes, the instruction never aborts
the scan (no .error), and when the cipher rejects the clamped bytes the
record is skipped per-record. -/
theorem short_payload_clamps (decrypt : Bytes → Option String) (disc : Bytes)
    (keys : List String) (sig : String) (bt : Option Int) (k : Nat)
    (ix : CompiledInstruction)
    (h16 : 16 ≤ ix.data.length)
    (hover : ix.data.length < 16 + le32 ix.data 12)
    (hpid : keys[ix.programIdIndex]? = some PROGRAM_ID) :
    slice ix.data 16 (16 + le32 ix.data 12) = ix.data.drop 16 ∧
    ∃ o, processInstruction decrypt disc keys sig bt k ix = .ok o ∧
      (decrypt (ix.data.drop 16) = none → o = none) := by
  have hsl : slice ix.data 16 (16 + le32 ix.data 12) = ix.data.drop 16 := by
    rw [slice, List.take_of_length_le (by omega)]
  refine ⟨hsl, ?_⟩
  simp only [processInstruction, hpid, if_pos rfl]
  by_cases h2 : matchesDiscriminator ix.data disc
  · simp only [if_pos h2]
    have h8 : readUInt32LE ix.data 8 = some (le32 ix.data 8) := by
      simp only [readUInt32LE, if_pos (by omega : 8 + 4 ≤ ix.data.length)]
    have h12 : readUInt32LE ix.data 12 = some (le32 ix.data 12) := by
      simp only [readUInt32LE, if_pos (by omega : 12 + 4 ≤ ix.data.length)]
    rw [h8, h12]
    by_cases hk : k ≤ le32 ix.data 8
    · simp only [if_pos hk, hsl]
      cases hdec : decrypt (ix.data.drop 16) with
      | none => exact ⟨none, rfl, fun _ => rfl⟩
      | some plain =>
        cases hak : ix.accountKeyIndexes[1]? with
        | none => exact ⟨none, by simp [hak], fun h => Option.noConfusion h⟩
        | some si =>
          cases hsi : keys[si]? with
          | none =>
            exact ⟨none, by simp [hak, hsi], fun h => Option.noConfusion h⟩
          | some sender =>
            exact ⟨some ⟨le32 ix.data 8, sender, plain, bt, sig⟩,
              by simp [hak, hsi], fun h => Option.noConfusion h⟩
    · simp only [if_neg hk]
      exact ⟨none, rfl, fun _ => rfl⟩
  · simp only [if_neg h2]
    exact ⟨none, rfl, fun _ => rfl⟩

theorem short_payload_clamps_witness :
    16 ≤ shortPayloadIx.data.length ∧
    shortPayloadIx.data.length < 16 + le32 shortPayloadIx.data 12 ∧
    keys0[shortPayloadIx.programIdIndex]? = some PROGRAM_ID ∧
    (slice shortPayloadIx.data 16 (16 + le32 shortPayloadIx.data 12) =
      shortPayloadIx.data.drop 16 ∧
    ∃ o, processInstruction decryptShort sendMessageTag keys0 "sig" none 0
        shortPayloadIx = .ok o ∧
      (decryptShort (shortPayloadIx.data.drop 16) = none → o = none)) := by
  refine ⟨by decide, by decide, by decide, ?_⟩
  exact short_payload_clamps decryptShort sendMessageTag keys0 "sig" none 0
    shortPayloadIx (by decide) (by decide) (by decide)

/-! ### Live listener notification handling (claim C6) -/

/-- Claim C6 counterexample: a notification advancing the counter from 0 to 2
over a history in which reconstruction recovers two new records makes the
listener display only the last of them — refuting the claim that every
resulting MessageRecord is emitted. -/
theorem monitor_latest_only_counterexample :
    fetchNewMessages decrypt0 sendMessageTag 0 histA =
      [⟨0, "alice", "hello", some 3, "sig0"⟩,
        ⟨1, "alice", "world", some 3, "sig1"⟩] ∧
    monitorStep decrypt0 sendMessageTag histA 0 2 =
      (2, .displayed ⟨1, "alice", "world", some 3, "sig1"⟩) := by
  exact ⟨by decide, by decide⟩

/-- Claim C6 amended: when the new counter exceeds the last-observed one, the
handler reconstructs with minIndex = the old counter, updates the counter to
the new value, and displays only the last record of the result — or reports a
soft could-not-retrieve condition when the result is empty; when the new
counter is at most the old one the notification is a no-op. -/
theorem monitor_step_spec (decrypt : Bytes → Option String) (disc : Bytes)
    (hist : History) (prev fresh : Nat) :
    (prev < fresh →
      (monitorStep decrypt disc hist prev fresh).1 = fresh ∧
      ((fetchNewMessages decrypt disc prev hist = [] ∧
        (monitorStep decrypt disc hist prev fresh).2 =
          .couldNotRetrieve prev fresh) ∨
      ∃ m, (fetchNewMessages decrypt disc prev hist).getLast? = some m ∧
        (monitorStep decrypt disc hist prev fresh).2 = .displayed m)) ∧
    (fresh ≤ prev →
      monitorStep decrypt disc hist prev fresh = (prev, .silent)) := by
  constructor
  · intro h
    simp only [monitorStep, if_pos h]
    cases hl : (fetchNewMessages decrypt disc prev hist).getLast? with
    | none => exact ⟨rfl, Or.inl ⟨List.getLast?_eq_none_iff.mp hl, rfl⟩⟩
    | some m => exact ⟨rfl, Or.inr ⟨m, rfl, rfl⟩⟩
  · intro h
    simp only [monitorStep, if_neg (Nat.not_lt.mpr h)]

theorem monitor_step_spec_witness :
    (0 < 2 ∧
      ((monitorStep decrypt0 sendMessageTag histA 0 2).1 = 2 ∧
      ((fetchNewMessages decrypt0 sendMessageTag 0 histA = [] ∧
        (monitorStep decrypt0 sendMessageTag histA 0 2).2 =
          .couldNotRetrieve 0 2) ∨
      ∃ m, (fetchNewMessages decrypt0 sendMessageTag 0 histA).getLast? =
          some m ∧
        (monitorStep decrypt0 sendMessageTag histA 0 2).2 = .displayed m))) ∧
    (1 ≤ 2 ∧ monitorStep decrypt0 sendMessageTag histA 2 1 = (2, .silent)) := by
  refine ⟨⟨by decide, ?_⟩, by decide, ?_⟩
  · exact (monitor_step_spec decrypt0 sendMessageTag histA 0 2).1 (by decide)
  · exact (monitor_step_spec decrypt0 sendMessageTag histA 2 1).2 (by decide)

end WhatsappSol
